import Mathlib

/-!
Verification development for the opietoolkitplus backup tool.

The Python sources are shallowly embedded:
  * the filesystem seen by the tool is an explicit tree (`FsTree`);
    paths are lists of components (the sources only ever build paths by
    joining components, and `os.path.normpath` is the identity on them);
  * `helpers/u.py` and `helpers/op1.py` directory probes become total
    functions over that tree (the `PermissionError` / `FileNotFoundError`
    branches of the sources, which return `False`, are modelled by the
    lookup failing);
  * `helpers/backups.py` archive creation and restoration become pure
    functions from trees to entry lists and back; the tqdm/print side
    effects are dropped and the progress-callback invocations are
    returned as a list of the reported values;
  * `helpers/mount.py` line parsing embeds the concrete regular
    expression of `get_mount_from_line` as a backtracking scanner over
    character lists, with Python's leftmost, greedy-first semantics;
  * `helpers/backup_metadata.py` becomes an association-list store
    (Python dicts keep insertion order and replace values in place).

Strings are treated at the level of their character lists; the character
class tests (`\w`, `\s`) are modelled on their ASCII meaning, which
covers every input the claims mention.
-/

set_option autoImplicit false

namespace Opie

/-- Python `s.startswith(p)` on strings, via the character lists. -/
def strStartsWith (s p : String) : Bool :=
  p.toList.isPrefixOf s.toList

/-- A name is hidden when it starts with the hidden marker, as in the
checks `child.startswith('.')` and `x[0] != '.'` of the sources (the
two agree on the non-empty names a directory listing produces). -/
def hiddenName (s : String) : Bool :=
  strStartsWith s "."

/-- First value bound to a key in an association list; Python dict and
directory-listing lookups are modelled with it. -/
def lookupKey {α : Type} : List (String × α) → String → Option α
  | [], _ => none
  | (k, v) :: rest, n => if k = n then some v else lookupKey rest n

/-- Replace the first binding of a key, or append a new binding: the
update behaviour of a Python dict (insertion order kept, value replaced
in place) and of writing one directory entry. -/
def setKey {α : Type} : List (String × α) → String → α → List (String × α)
  | [], n, v => [(n, v)]
  | (k, w) :: rest, n, v =>
      if k = n then (n, v) :: rest else (k, w) :: setKey rest n v

/-- A node of the modelled filesystem: a regular file with its byte
contents, or a directory with its ordered list of named children (the
order is the order `os.listdir` reports). -/
inductive FsTree where
  | file (content : List Nat)
  | dir (children : List (String × FsTree))

instance : Inhabited FsTree := ⟨.dir []⟩

/-- Whether a node is a directory, as `os.path.isdir` reports it. -/
def FsTree.isDir : FsTree → Bool
  | .file _ => false
  | .dir _ => true

/-- Resolve a component path below a node; `none` models the path not
existing (or crossing a regular file). -/
def lookupNode : FsTree → List String → Option FsTree
  | t, [] => some t
  | .file _, _ :: _ => none
  | .dir cs, n :: rest =>
      match lookupKey cs n with
      | some sub => lookupNode sub rest
      | none => none

/-- Python `os.path.exists` over the modelled tree. -/
def pathExists (world : FsTree) (p : List String) : Bool :=
  (lookupNode world p).isSome

/-- Python `os.path.isdir` over the modelled tree. -/
def isDirAt (world : FsTree) (p : List String) : Bool :=
  match lookupNode world p with
  | some t => t.isDir
  | none => false

/-! ### helpers/u.py -/

/-- u.get_visible_children: the names listed in a directory that do not
start with the hidden marker.  A failing listing (missing path, or a
regular file) is modelled as the empty listing; the sources only use
this function under a handler that turns those errors into `False`. -/
def get_visible_children (world : FsTree) (p : List String) : List String :=
  match lookupNode world p with
  | some (.dir cs) => (cs.map Prod.fst).filter (fun x => ! hiddenName x)
  | _ => []

/-- u.get_visible_folders: the visible children that are directories. -/
def get_visible_folders (world : FsTree) (p : List String) : List String :=
  (get_visible_children world p).filter (fun x => isDirAt world (p ++ [x]))

/-! ### helpers/op1.py -/

/-- OP1_BASE_DIRS: the required fingerprint names (a set literal in the
source; listed here in the order written there). -/
def OP1_BASE_DIRS : List String := ["tape", "album", "synth", "drum"]

/-- op1.is_op1_drive: the fingerprint test,
`OP1_BASE_DIRS.issubset(set(u.get_visible_folders(path)))`; the
except-branches returning `False` are covered by the lookup failing. -/
def is_op1_drive (world : FsTree) (p : List String) : Bool :=
  OP1_BASE_DIRS.all (fun r => (get_visible_folders world p).contains r)

/-- op1.is_valid_mount:
`os.path.exists(mount_point) and is_op1_drive(mount_point)`. -/
def is_valid_mount (world : FsTree) (p : List String) : Bool :=
  pathExists world p && is_op1_drive world p

/-- The loop body of op1.find_op1_mount (POSIX branch): scan the
enumerated `(device, mount_point)` pairs in order and return the first
mount point that passes the fingerprint test.  The per-volume
`PermissionError` / `FileNotFoundError` handler of the source maps to
`is_op1_drive` being `false` on an unresolvable path. -/
def findMountLoop (world : FsTree) : List (String × List String) → Option (List String)
  | [] => none
  | (_, mp) :: rest =>
      if is_op1_drive world mp then some mp else findMountLoop world rest

/-- op1.find_op1_mount (POSIX branch): `mounts` is the result of
mount.get_potential_mounts, which can be the `None` sentinel; the
source guards the loop with `if mounts:`, so `None` and the empty list
both fall through to `return None`. -/
def find_op1_mount (world : FsTree)
    (mounts : Option (List (String × List String))) : Option (List String) :=
  match mounts with
  | none => none
  | some ms => findMountLoop world ms

/-! ### helpers/mount.py

The POSIX line parser is the regular expression

  `^\s*(?P<device>/dev/\w+) on (?P<mount>[^\0]+) (type .*)?\(.*\)\s*$`

matched with `re.match`.  Python's backtracking engine gives the
earlier greedy quantifier priority, so the `mount` group is the longest
non-empty NUL-free span whose remainder still matches
` (type .*)?\(.*\)\s*$`.  The scanner below implements exactly that
search; `\s` and `\w` are taken at their ASCII meaning and `.` matches
every character except the newline, as in Python without DOTALL. -/

/-- Python `\s` on ASCII. -/
def pyIsSpace (c : Char) : Bool :=
  c = ' ' || c = '\t' || c = '\n' || c = '\x0b' || c = '\x0c' || c = '\r'

/-- Python `\w` on ASCII. -/
def pyIsWord (c : Char) : Bool :=
  c.isAlphanum || c = '_'

/-- Tail `\s*$` of the pattern. -/
def allSpace (l : List Char) : Bool :=
  l.all pyIsSpace

/-- Scan for `.*\)\s*$` after an opening parenthesis was consumed:
some position holds the closing parenthesis, everything before it is
newline-free, everything after it is whitespace. -/
def parenScan : List Char → Bool
  | [] => false
  | c :: rest => (c = ')' && allSpace rest) || (c ≠ '\n' && parenScan rest)

/-- Match `\(.*\)\s*$` against a whole suffix. -/
def parenMatch : List Char → Bool
  | '(' :: rest => parenScan rest
  | _ => false

/-- Match `.*\(.*\)\s*$` against a whole suffix: skip newline-free
characters until `\(.*\)\s*$` matches. -/
def dotStarParen : List Char → Bool
  | [] => false
  | c :: rest => parenMatch (c :: rest) || (c ≠ '\n' && dotStarParen rest)

/-- Match `(type .*)?\(.*\)\s*$` against a whole suffix. -/
def tailMatch (t : List Char) : Bool :=
  parenMatch t ||
    (match t with
     | 't' :: 'y' :: 'p' :: 'e' :: ' ' :: rest => dotStarParen rest
     | _ => false)

/-- Match ` (type .*)?\(.*\)\s*$` (the part following the mount group)
against a whole suffix. -/
def sepTail : List Char → Bool
  | ' ' :: t => tailMatch t
  | _ => false

/-- The backtracking search for the greedy group `(?P<mount>[^\0]+)`:
with `m` the candidate consumed so far and `s` the rest of the line,
longer candidates are tried first, and a candidate is accepted when it
is non-empty, NUL-free, and the remainder matches `sepTail`. -/
def mountScan (m : List Char) : List Char → Option (List Char)
  | [] => none
  | c :: rest =>
      match mountScan (m ++ [c]) rest with
      | some r => some r
      | none =>
          if m ≠ [] && m.all (fun a => a ≠ '\x00') && sepTail (c :: rest) then
            some m
          else none

/-- mount.get_mount_from_line: apply the pattern to one line of `mount`
output; `none` models the `return None` of a failed match. -/
def get_mount_from_line (line : String) : Option (String × String) :=
  let l1 := line.toList.dropWhile pyIsSpace
  match l1 with
  | '/' :: 'd' :: 'e' :: 'v' :: '/' :: rest =>
      let w := rest.takeWhile pyIsWord
      let r1 := rest.dropWhile pyIsWord
      if w = [] then none
      else
        match r1 with
        | ' ' :: 'o' :: 'n' :: ' ' :: r2 =>
            match mountScan [] r2 with
            | some m => some (String.mk ('/' :: 'd' :: 'e' :: 'v' :: '/' :: w), String.mk m)
            | none => none
        | _ => none
  | _ => none

/-- The non-removable roots of mount.is_poopy_mount (source constant
BAD_PREFIX). -/
def badMountRoots : List String := ["/dev", "/sys", "/net", "/proc", "/run", "/boot"]

/-- mount.is_poopy_mount (POSIX branch). -/
def is_poopy_mount (mount : String) : Bool :=
  if mount = "/" || mount = "/home" then true
  else badMountRoots.any (fun p => strStartsWith mount p)

/-- Python `out.split(sep)` for a one-character separator, on the
character list: splitting keeps empty pieces, and splitting the empty
string yields one empty piece, exactly as `str.split` with an explicit
separator does. -/
def splitOnChar (c : Char) : List Char → List (List Char)
  | [] => [[]]
  | a :: rest =>
      match splitOnChar c rest with
      | h :: t => if a = c then [] :: h :: t else (a :: h) :: t
      | [] => if a = c then [[], []] else [[a]]

/-- The outcome of `subprocess.run(["mount"], ...)` as
mount.get_potential_mounts inspects it: an exit status and an optional
captured standard output. -/
structure RunResult where
  returncode : Int
  stdout : Option String
  deriving DecidableEq, Repr

/-- mount.get_potential_mounts (POSIX branch): `none` models the two
`return None` diagnostic branches; otherwise the lines are parsed and
the non-removable mount points filtered out.  The function is total: it
never raises to the caller. -/
def get_potential_mounts (result : RunResult) : Option (List (String × String)) :=
  if result.returncode ≠ 0 then none
  else
    match result.stdout with
    | none => none
    | some out =>
        let lines := (splitOnChar '\n' out.toList).map String.mk
        let mounts := lines.map get_mount_from_line
        some (mounts.filterMap (fun o =>
          match o with
          | some x => if is_poopy_mount x.2 then none else some x
          | none => none))

/-! ### helpers/backup_metadata.py -/

/-- BackupMetadata: the in-memory `self.metadata` mapping, a JSON
object from backup name to a metadata object (itself modelled as a
key-value list). -/
structure BackupMetadata where
  metadata : List (String × List (String × String))
  deriving DecidableEq, Repr

/-- BackupMetadata.update_backup_metadata:
`self.metadata[backup_name] = metadata` (the `_save_metadata` disk
write is outside the model; its failures are swallowed with a warning
by the source). -/
def update_backup_metadata (s : BackupMetadata) (backup_name : String)
    (m : List (String × String)) : BackupMetadata :=
  ⟨setKey s.metadata backup_name m⟩

/-- BackupMetadata.get_backup_metadata:
`self.metadata.get(backup_name, dict())`. -/
def get_backup_metadata (s : BackupMetadata) (backup_name : String) :
    List (String × String) :=
  (lookupKey s.metadata backup_name).getD []

/-! ### helpers/backups.py and commands/verify.py

Archive entries are `(components, item)` pairs: the stored member name
is the component list joined with the normalized separator, and the
item records whether the member is a directory or a file with given
contents.  `tarfile.TarFile.add` with `recursive=True` descends through
`sorted(os.listdir(...))`, which the insertion sort below models;
`os.walk` yields listing order. -/

/-- A member of a tar archive: a directory, or a file with contents. -/
inductive TarItem where
  | dirE
  | fileE (content : List Nat)
  deriving DecidableEq, Repr

instance : Inhabited TarItem := ⟨.dirE⟩

/-- An archive entry: the member path relative to the mount root, as
components, together with the member itself. -/
abbrev TarEntry := List String × TarItem

/-- One step of insertion sort on a listing, ordering by name. -/
def insortChild (c : String × FsTree) :
    List (String × FsTree) → List (String × FsTree)
  | [] => [c]
  | d :: rest => if c.1 ≤ d.1 then c :: d :: rest else d :: insortChild c rest

/-- Python `sorted` over a listing, by name: the iteration order of
`tarfile.TarFile.add` when it descends into a directory. -/
def sortChildren : List (String × FsTree) → List (String × FsTree)
  | [] => []
  | c :: rest => insortChild c (sortChildren rest)

theorem sizeOf_insortChild (c : String × FsTree) (l : List (String × FsTree)) :
    sizeOf (insortChild c l) = 1 + sizeOf c + sizeOf l := by
  induction l with
  | nil => simp [insortChild]
  | cons d rest ih =>
      simp only [insortChild]
      split
      · simp
      · simp [ih]; omega

theorem sizeOf_sortChildren (l : List (String × FsTree)) :
    sizeOf (sortChildren l) = sizeOf l := by
  induction l with
  | nil => rfl
  | cons c rest ih => simp [sortChildren, sizeOf_insortChild, ih]

mutual

/-- tarfile.TarFile.add(path, arcname, recursive): emits the member for
the node itself and, when `recursive` and the node is a directory, the
members of every descendant in sorted order — including hidden ones,
which tarfile does not filter. -/
def tarAddTree (arc : List String) (t : FsTree) (recursive : Bool) :
    List TarEntry :=
  match t with
  | .file c => [(arc, .fileE c)]
  | .dir cs =>
      (arc, .dirE) :: (if recursive then tarAddChildren arc (sortChildren cs) else [])
termination_by sizeOf t
decreasing_by
  all_goals simp_wf
  all_goals rw [sizeOf_sortChildren]
  all_goals omega

/-- The recursive descent of tarfile.TarFile.add over a (sorted)
listing. -/
def tarAddChildren (arc : List String) (cs : List (String × FsTree)) :
    List TarEntry :=
  match cs with
  | [] => []
  | (n, t) :: rest => tarAddTree (arc ++ [n]) t true ++ tarAddChildren arc rest
termination_by sizeOf cs
decreasing_by
  all_goals simp_wf
  all_goals omega

end

mutual

/-- os.walk(topdown): yields `(root, dirs, files)` for the root
listing, then recurses into each subdirectory in listing order.  It
descends into every directory, hidden ones included. -/
def osWalk (base : List String) (cs : List (String × FsTree)) :
    List (List String × List (String × FsTree) × List (String × FsTree)) :=
  (base, cs.filter (fun c => c.2.isDir), cs.filter (fun c => ! c.2.isDir))
    :: walkInto base cs
termination_by (sizeOf cs, 1)

/-- The recursion of os.walk over the subdirectories of one listing. -/
def walkInto (base : List String) :
    (l : List (String × FsTree)) →
      List (List String × List (String × FsTree) × List (String × FsTree))
  | [] => []
  | (n, t) :: rest =>
      (match t with
       | .dir cs2 => osWalk (base ++ [n]) cs2
       | .file _ => []) ++ walkInto base rest
termination_by l => (sizeOf l, 0)
decreasing_by
  all_goals simp_wf
  all_goals apply Prod.Lex.left
  all_goals omega

end

/-- backups.generate_archive, reduced to the entries it writes: for
each non-hidden immediate child of the mount root, add the child
non-recursively; when the child is a directory, walk it and add every
walked name that is not itself hidden, recursively, under its path
relative to the mount root (`files` before `dirs`, as the source
iterates `files + dirs`).  The timestamped file name, the tqdm output
and the on-disk compression are outside the model. -/
def generate_archive (mount : FsTree) : List TarEntry :=
  match mount with
  | .file _ => []
  | .dir cs =>
      cs.flatMap (fun c =>
        if hiddenName c.1 then []
        else
          tarAddTree [c.1] c.2 false ++
            (match c.2 with
             | .dir ccs =>
                 (osWalk [c.1] ccs).flatMap (fun tri =>
                   (tri.2.2 ++ tri.2.1).flatMap (fun nc =>
                     if hiddenName nc.1 then []
                     else tarAddTree (tri.1 ++ [nc.1]) nc.2 true))
             | .file _ => []))

/-- tarfile extraction of one member under a root: intermediate
directories are created as needed, a directory member that already
exists is kept (tarfile swallows the mkdir EEXIST), a file member is
written over whatever was there.  Extraction conflicts that would
raise in the real code (a regular file where a directory is needed)
leave the tree unchanged here; no claim exercises them. -/
def insertAt : FsTree → List String → TarItem → FsTree
  | t, [], _ => t
  | .file c, _ :: _, _ => .file c
  | .dir cs, [n], .fileE content => .dir (setKey cs n (.file content))
  | .dir cs, [n], .dirE =>
      match lookupKey cs n with
      | some _ => .dir cs
      | none => .dir (cs ++ [(n, .dir [])])
  | .dir cs, n :: rest, it =>
      match lookupKey cs n with
      | some sub => .dir (setKey cs n (insertAt sub rest it))
      | none => .dir (cs ++ [(n, insertAt (.dir []) rest it)])

/-- Apply a function to the subtree at a path (identity when the path
does not resolve). -/
def updateAt : FsTree → List String → (FsTree → FsTree) → FsTree
  | t, [], f => f t
  | .file c, _ :: _, _ => .file c
  | .dir cs, n :: rest, f =>
      match lookupKey cs n with
      | some sub => .dir (setKey cs n (updateAt sub rest f))
      | none => .dir cs

/-- The two refusals of backups.restore_archive, in the order the
source checks them. -/
inductive RestoreError where
  | notFound
  | invalidMount
  deriving DecidableEq, Repr

/-- Round a rational to the nearest integer, ties to even: the
rounding IEEE-754 round-to-nearest-even performs on an
integer-and-fraction scaled significand. -/
def roundHalfEven (r : ℚ) : ℤ :=
  if r - ⌊r⌋ < 1/2 then ⌊r⌋
  else if 1/2 < r - ⌊r⌋ then ⌊r⌋ + 1
  else if ⌊r⌋ % 2 = 0 then ⌊r⌋ else ⌊r⌋ + 1

/-- Round a positive rational to 53 significant bits, to nearest with
ties to even, with unbounded exponent: the value is scaled so that its
significand lies in `[2^52, 2^53)`, the significand is rounded, and
the result is scaled back.  On every value whose magnitude lies in the
binary64 normal range — which covers `k / total` and its product with
100 for every realizable member count — this is exactly the IEEE-754
binary64 rounding that CPython float arithmetic applies; it has no
overflow or subnormal behaviour, which the restore loop cannot reach.
Non-positive input (never produced by the loop) maps to 0. -/
def roundB64 (x : ℚ) : ℚ :=
  if x ≤ 0 then 0
  else (roundHalfEven (x * 2 ^ (52 - Int.log 2 x)) : ℚ) * 2 ^ (Int.log 2 x - 52)

/-- The value `int((i + 1) / total_members * 100)` as CPython computes
it: the true division of the two integers is correctly rounded to
binary64, the multiplication by the (exactly representable) float 100
is correctly rounded again, and `int` truncates toward zero — the
floor, as the value is non-negative. -/
def progressValue (k total : ℕ) : ℕ :=
  (⌊roundB64 (roundB64 ((k : ℚ) / total) * 100)⌋).toNat

/-- The values handed to the progress callback, in archive order. -/
def restoreProgress (total : Nat) : List Nat :=
  (List.range total).map (fun i => progressValue (i + 1) total)

/-- backups.restore_archive: `archive = none` models the archive path
not existing (`FileNotFoundError` branch), before which nothing is
touched; then the mount is validated with op1.is_valid_mount
(`ValueError` branch); only then is every member extracted in archive
order under the mount root.  The result carries the outcome, the world
after the call, and the list of values reported to the progress
callback. -/
def restore_archive (world : FsTree) (archive : Option (List TarEntry))
    (mount : List String) : Except RestoreError Unit × FsTree × List Nat :=
  match archive with
  | none => (.error .notFound, world, [])
  | some entries =>
      if is_valid_mount world mount then
        (.ok (),
         updateAt world mount
           (fun sub => entries.foldl (fun acc e => insertAt acc e.1 e.2) sub),
         restoreProgress entries.length)
      else (.error .invalidMount, world, [])

mutual

/-- All relative paths present under a node (the node itself, as the
empty path, excluded). -/
def pathsOf : FsTree → List (List String)
  | .file _ => []
  | .dir cs => pathsOfChildren cs
termination_by t => sizeOf t
decreasing_by
  all_goals simp_wf

/-- The paths contributed by one listing. -/
def pathsOfChildren : (cs : List (String × FsTree)) → List (List String)
  | [] => []
  | (n, t) :: rest =>
      [n] :: ((pathsOf t).map (fun p => n :: p) ++ pathsOfChildren rest)
termination_by cs => sizeOf cs
decreasing_by
  all_goals simp_wf
  all_goals omega

end

/-- The relative paths under a node with every path containing a hidden
component removed: what "the tree excluding hidden entries" denotes. -/
def visiblePathsOf (t : FsTree) : List (List String) :=
  (pathsOf t).filter (fun p => ! p.any (fun s => hiddenName s))

/-- The relative paths under the node at a path of the world. -/
def pathsAt (world : FsTree) (p : List String) : List (List String) :=
  match lookupNode world p with
  | some t => pathsOf t
  | none => []

/-- The required names of verify.verify_backup_structure (a set literal
in the source; listed in the order written there.  Python iterates sets
in an unspecified, hash-dependent order; the order only influences the
message when at least two names are missing). -/
def verifyRequiredDirs : List String := ["tape", "album", "synth", "drum"]

/-- The stored member name of an entry: its components joined with the
normalized separator. -/
def memberName (e : TarEntry) : String :=
  String.intercalate "/" e.1

/-- The source's `member.name.split('/')[0]`: everything before the
first separator. -/
def topSegment (e : TarEntry) : String :=
  String.mk ((memberName e).toList.takeWhile (fun c => c ≠ '/'))

/-- The `found_dirs` collection: the top-level segment of every member
(set semantics recovered through `contains`). -/
def foundDirs (entries : List TarEntry) : List String :=
  entries.map topSegment

/-- The `missing_dirs` collection: required names with no member under
them. -/
def missingDirs (entries : List TarEntry) : List String :=
  verifyRequiredDirs.filter (fun r => ! (foundDirs entries).contains r)

/-- verify.verify_backup_structure on an archive already read into its
member list: one issue naming the missing required names when there
are any, then one issue per present-but-empty required name (the
source's `startswith` scan); returns `(len(issues) == 0, issues)`.
The except-branch for an unreadable archive is outside the model, as
the archive is given by value. -/
def verify_backup_structure (entries : List TarEntry) : Bool × List String :=
  let missing := missingDirs entries
  let missingIssues :=
    if missing.isEmpty then []
    else ["Missing required directories: " ++ String.intercalate ", " missing]
  let emptyIssues :=
    (verifyRequiredDirs.filter (fun r => (foundDirs entries).contains r)).filterMap
      (fun r =>
        if entries.any (fun e => strStartsWith (memberName e) r) then none
        else some ("Directory " ++ r ++ " is empty"))
  let issues := missingIssues ++ emptyIssues
  (issues.isEmpty, issues)

/-! ### Association-list and path lemmas -/

theorem lookupKey_isSome_iff_mem {α : Type} (cs : List (String × α)) (r : String) :
    (lookupKey cs r).isSome = true ↔ r ∈ cs.map Prod.fst := by
  induction cs with
  | nil => simp [lookupKey]
  | cons c rest ih =>
      obtain ⟨k, v⟩ := c
      by_cases h : k = r
      · subst h; simp [lookupKey]
      · simp [lookupKey, h, ih, Ne.symm h]

theorem lookupKey_append_left {α : Type} (cs ds : List (String × α)) (r : String)
    (h : (lookupKey cs r).isSome = true) :
    lookupKey (cs ++ ds) r = lookupKey cs r := by
  induction cs with
  | nil => simp [lookupKey] at h
  | cons c rest ih =>
      obtain ⟨k, v⟩ := c
      by_cases hk : k = r
      · subst hk; simp [lookupKey]
      · rw [List.cons_append]
        simp only [lookupKey, if_neg hk] at h ⊢
        exact ih h

theorem lookupKey_setKey_self {α : Type} (l : List (String × α)) (n : String) (v : α) :
    lookupKey (setKey l n v) n = some v := by
  induction l with
  | nil => simp [setKey, lookupKey]
  | cons c rest ih =>
      obtain ⟨k, w⟩ := c
      by_cases hk : k = n
      · simp [setKey, hk, lookupKey]
      · simp [setKey, hk, lookupKey, ih]

theorem lookupKey_setKey_ne {α : Type} (l : List (String × α)) (n k : String) (v : α)
    (h : k ≠ n) : lookupKey (setKey l n v) k = lookupKey l k := by
  induction l with
  | nil => simp [setKey, lookupKey, Ne.symm h]
  | cons c rest ih =>
      obtain ⟨k0, w⟩ := c
      by_cases hk : k0 = n
      · subst hk; simp [setKey, lookupKey, Ne.symm h]
      · simp only [setKey, if_neg hk, lookupKey]
        by_cases hk2 : k0 = k
        · simp [hk2]
        · simp [hk2, ih]

theorem lookupNode_append (t : FsTree) (p q : List String) :
    lookupNode t (p ++ q) = (lookupNode t p).bind (fun s => lookupNode s q) := by
  induction p generalizing t with
  | nil => simp [lookupNode]
  | cons n rest ih =>
      cases t with
      | file c => simp [lookupNode]
      | dir cs =>
          simp only [List.cons_append, lookupNode]
          cases lookupKey cs n with
          | none => simp
          | some sub => simpa using ih sub

theorem lookupNode_singleton (t : FsTree) (r : String) :
    lookupNode t [r] =
      (match t with
       | .dir cs => lookupKey cs r
       | .file _ => none) := by
  cases t with
  | file c => rfl
  | dir cs =>
      simp only [lookupNode]
      cases lookupKey cs r <;> simp [lookupNode]

/-! ### Claim C1: the device fingerprint test -/

theorem mem_get_visible_folders_iff (world : FsTree) (p : List String) (r : String)
    (hr : hiddenName r = false) :
    r ∈ get_visible_folders world p ↔
      ∃ cs, lookupNode world (p ++ [r]) = some (.dir cs) := by
  unfold get_visible_folders get_visible_children
  rw [lookupNode_append]
  cases h : lookupNode world p with
  | none => simp
  | some t =>
      cases t with
      | file c => simp [lookupNode]
      | dir cs =>
          simp only [Option.some_bind, lookupNode_singleton]
          rw [List.mem_filter, List.mem_filter]
          constructor
          · rintro ⟨⟨hmem, -⟩, hdir⟩
            have hsome : (lookupKey cs r).isSome = true :=
              (lookupKey_isSome_iff_mem cs r).mpr hmem
            unfold isDirAt at hdir
            rw [lookupNode_append, h] at hdir
            simp only [Option.some_bind, lookupNode_singleton] at hdir
            cases hk : lookupKey cs r with
            | none => rw [hk] at hsome; simp at hsome
            | some sub =>
                rw [hk] at hdir
                cases sub with
                | file c2 => simp [FsTree.isDir] at hdir
                | dir cs2 => exact ⟨cs2, by simp [hk]⟩
          · rintro ⟨cs2, hcs2⟩
            have hsome : (lookupKey cs r).isSome = true := by
              rw [hcs2]; rfl
            refine ⟨⟨(lookupKey_isSome_iff_mem cs r).mp hsome, by simp [hr]⟩, ?_⟩
            unfold isDirAt
            rw [lookupNode_append, h]
            simp only [Option.some_bind, lookupNode_singleton]
            rw [hcs2]
            rfl

/-- Claim C1.  The fingerprint test `is_op1_drive` accepts a path
exactly when each of the four required names resolves, one component
below it, to a directory — visibility is automatic because none of the
required names starts with the hidden marker; and entries added to the
listing never turn acceptance into rejection (the test is a subset
test, not an equality test). -/
theorem is_op1_drive_fingerprint :
    (∀ (world : FsTree) (p : List String),
        is_op1_drive world p = true ↔
          ∀ r ∈ OP1_BASE_DIRS, ∃ cs, lookupNode world (p ++ [r]) = some (.dir cs)) ∧
    (∀ (cs extra : List (String × FsTree)),
        is_op1_drive (.dir cs) [] = true →
        is_op1_drive (.dir (cs ++ extra)) [] = true) := by
  have hidden_req : ∀ r ∈ OP1_BASE_DIRS, hiddenName r = false := by decide
  have main : ∀ (world : FsTree) (p : List String),
      is_op1_drive world p = true ↔
        ∀ r ∈ OP1_BASE_DIRS, ∃ cs, lookupNode world (p ++ [r]) = some (.dir cs) := by
    intro world p
    unfold is_op1_drive
    rw [List.all_eq_true]
    constructor
    · intro hall r hr
      have := hall r hr
      rw [List.elem_iff] at this
      exact (mem_get_visible_folders_iff world p r (hidden_req r hr)).mp this
    · intro hall r hr
      rw [List.elem_iff]
      exact (mem_get_visible_folders_iff world p r (hidden_req r hr)).mpr (hall r hr)
  refine ⟨main, ?_⟩
  intro cs extra h
  rw [main] at h ⊢
  intro r hr
  obtain ⟨cs2, hcs2⟩ := h r hr
  refine ⟨cs2, ?_⟩
  simp only [List.nil_append, lookupNode_singleton] at hcs2 ⊢
  rw [lookupKey_append_left cs extra r (by rw [hcs2]; rfl)]
  exact hcs2

/-- A drive listing holding the four required directories. -/
def exDriveListing : List (String × FsTree) :=
  [("tape", .dir []), ("album", .dir []), ("synth", .dir []),
   ("drum", .dir []), ("readme.txt", .file [104, 105])]

theorem is_op1_drive_fingerprint_witness :
    is_op1_drive (.dir exDriveListing) [] = true ∧
    is_op1_drive (.dir (exDriveListing ++ [("extra", .dir [])])) [] = true := by
  have h1 : is_op1_drive (.dir exDriveListing) [] = true := by
    refine (is_op1_drive_fingerprint.1 (.dir exDriveListing) []).mpr ?_
    intro r hr
    fin_cases hr
    · exact ⟨[], rfl⟩
    · exact ⟨[], rfl⟩
    · exact ⟨[], rfl⟩
    · exact ⟨[], rfl⟩
  exact ⟨h1, is_op1_drive_fingerprint.2 exDriveListing [("extra", .dir [])] h1⟩

/-! ### Claim C10: the metadata store -/

/-- Claim C10.  Updating one backup's metadata makes that name map to
the new value, leaves every other name's lookup unchanged, and a name
that was never recorded reads back as the empty mapping. -/
theorem backup_metadata_update_frame :
    ∀ (s : BackupMetadata) (n : String) (m : List (String × String)) (k : String),
      get_backup_metadata (update_backup_metadata s n m) n = m ∧
      (k ≠ n →
        get_backup_metadata (update_backup_metadata s n m) k = get_backup_metadata s k) ∧
      (lookupKey s.metadata k = none → get_backup_metadata s k = []) := by
  intro s n m k
  refine ⟨?_, ?_, ?_⟩
  · unfold get_backup_metadata update_backup_metadata
    rw [lookupKey_setKey_self]
    rfl
  · intro hk
    unfold get_backup_metadata update_backup_metadata
    rw [lookupKey_setKey_ne _ _ _ _ hk]
  · intro hk
    unfold get_backup_metadata
    rw [hk]
    rfl

theorem backup_metadata_update_frame_witness :
    get_backup_metadata
        (update_backup_metadata ⟨[("old", [("size_bytes", "1")])]⟩ "new" [("sha256", "aa")])
        "new" = [("sha256", "aa")] ∧
    get_backup_metadata
        (update_backup_metadata ⟨[("old", [("size_bytes", "1")])]⟩ "new" [("sha256", "aa")])
        "old" = [("size_bytes", "1")] ∧
    get_backup_metadata (⟨[("old", [("size_bytes", "1")])]⟩ : BackupMetadata) "never" = [] :=
  ⟨(backup_metadata_update_frame ⟨[("old", [("size_bytes", "1")])]⟩ "new"
      [("sha256", "aa")] "old").1,
   (backup_metadata_update_frame ⟨[("old", [("size_bytes", "1")])]⟩ "new"
      [("sha256", "aa")] "old").2.1 (by decide),
   (backup_metadata_update_frame ⟨[("old", [("size_bytes", "1")])]⟩ "new"
      [("sha256", "aa")] "never").2.2 (by decide)⟩

/-! ### Claim C4: the restore preconditions -/

/-- Claim C4.  restore_archive refuses a missing archive with the
not-found error, and an existing archive aimed at a mount that fails
the fingerprint validity check with the invalid-mount error; both
refusals happen before any entry is extracted, so the world is
returned unchanged and no progress value is reported. -/
theorem restore_archive_refusals :
    ∀ (world : FsTree) (mount : List String),
      restore_archive world none mount = (.error .notFound, world, []) ∧
      (∀ entries, is_valid_mount world mount = false →
        restore_archive world (some entries) mount = (.error .invalidMount, world, [])) := by
  intro world mount
  refine ⟨rfl, ?_⟩
  intro entries h
  simp [restore_archive, h]

theorem restore_archive_refusals_witness :
    restore_archive (.dir []) none ["op1"] = (.error .notFound, .dir [], []) ∧
    restore_archive (.dir []) (some [(["tape"], TarItem.dirE)]) ["op1"] =
      (.error .invalidMount, .dir [], []) :=
  ⟨(restore_archive_refusals (.dir []) ["op1"]).1,
   (restore_archive_refusals (.dir []) ["op1"]).2 [(["tape"], TarItem.dirE)] (by decide)⟩

/-! ### Claim C9: first-match device discovery -/

/-- Claim C9.  find_op1_mount returns the first enumerated volume, in
enumeration order, whose mount point passes the fingerprint test, and
the none sentinel when the enumeration itself is the failure sentinel,
is empty, or has no match; a volume whose path does not resolve is a
non-match (the source catches the per-volume error and continues), so
it never blocks later volumes.  The function is total: it never
throws. -/
theorem find_op1_mount_first_match :
    ∀ (world : FsTree) (mounts : Option (List (String × List String))),
      find_op1_mount world mounts =
        ((mounts.getD []).find? (fun v => is_op1_drive world v.2)).map Prod.snd ∧
      (∀ p, pathExists world p = false → is_op1_drive world p = false) := by
  intro world mounts
  constructor
  · cases mounts with
    | none => rfl
    | some ms =>
        induction ms with
        | nil => rfl
        | cons v rest ih =>
            obtain ⟨d, mp⟩ := v
            simp only [find_op1_mount, findMountLoop, Option.getD_some, List.find?_cons]
            cases h : is_op1_drive world mp with
            | true => simp [h]
            | false =>
                simp only [h, Bool.false_eq_true, if_false]
                simpa [find_op1_mount] using ih
  · intro p h
    cases h2 : lookupNode world p with
    | some t => rw [pathExists, h2] at h; simp at h
    | none =>
        simp [is_op1_drive, get_visible_folders, get_visible_children, h2, OP1_BASE_DIRS]

/-- A world with the device at the second enumerated volume and a dud
first volume. -/
def exMountWorld : FsTree :=
  .dir [("vol", .dir exDriveListing), ("data", .dir [])]

theorem find_op1_mount_first_match_witness :
    find_op1_mount exMountWorld
        (some [("/dev/sda1", ["data"]), ("/dev/disk2s1", ["vol"]), ("/dev/x", ["missing"])]) =
      some ["vol"] ∧
    is_op1_drive exMountWorld ["missing"] = false :=
  ⟨(find_op1_mount_first_match exMountWorld
      (some [("/dev/sda1", ["data"]), ("/dev/disk2s1", ["vol"]), ("/dev/x", ["missing"])])).1.trans
     (by decide),
   (find_op1_mount_first_match exMountWorld none).2 ["missing"] (by decide)⟩

/-! ### Claim C6: structural verification of an archive -/

theorem topSegment_startsWith (e : TarEntry) :
    strStartsWith (memberName e) (topSegment e) = true := by
  unfold strStartsWith topSegment
  have : (String.mk ((memberName e).toList.takeWhile (fun c => c ≠ '/'))).toList
      = (memberName e).toList.takeWhile (fun c => c ≠ '/') := rfl
  rw [this, List.isPrefixOf_iff_prefix]
  exact List.takeWhile_prefix _

/-- Claim C6.  verify_backup_structure reports valid exactly when its
issues list is empty, and on an archive whose top-level segments miss
exactly one required name it returns invalid with a single issue
naming exactly that directory. -/
theorem verify_backup_structure_spec :
    ∀ entries : List TarEntry,
      ((verify_backup_structure entries).1 = true ↔
        (verify_backup_structure entries).2 = []) ∧
      (∀ d, missingDirs entries = [d] →
        verify_backup_structure entries =
          (false, ["Missing required directories: " ++ d])) := by
  intro entries
  constructor
  · unfold verify_backup_structure
    simp
  · intro d hd
    have hempty : ∀ r : String, (foundDirs entries).contains r = true →
        entries.any (fun e => strStartsWith (memberName e) r) = true := by
      intro r hr
      rw [List.elem_iff] at hr
      unfold foundDirs at hr
      rw [List.mem_map] at hr
      obtain ⟨e, he, hte⟩ := hr
      rw [List.any_eq_true]
      exact ⟨e, he, by rw [← hte]; exact topSegment_startsWith e⟩
    unfold verify_backup_structure
    rw [hd]
    have h1 : (String.intercalate ", " [d]) = d := rfl
    have h2 : (verifyRequiredDirs.filter
        (fun r => (foundDirs entries).contains r)).filterMap
          (fun r =>
            if entries.any (fun e => strStartsWith (memberName e) r) then none
            else some ("Directory " ++ r ++ " is empty")) = [] := by
      rw [List.filterMap_eq_nil_iff]
      intro r hrf
      rw [List.mem_filter] at hrf
      rw [if_pos (hempty r hrf.2)]
    simp only [h1, h2]
    simp

theorem verify_backup_structure_spec_witness :
    verify_backup_structure
        [(["tape"], TarItem.dirE), (["album", "side_a.aif"], TarItem.fileE []),
         (["synth", "p.aif"], TarItem.fileE [3])] =
      (false, ["Missing required directories: " ++ "drum"]) :=
  (verify_backup_structure_spec
      [(["tape"], TarItem.dirE), (["album", "side_a.aif"], TarItem.fileE []),
       (["synth", "p.aif"], TarItem.fileE [3])]).2 "drum" (by decide)

/-! ### Claim C5: restore progress reporting -/

/-- A world holding a valid device mount at `op1`. -/
def exProgressWorld : FsTree := .dir [("op1", .dir exDriveListing)]

/-- A three-entry archive. -/
def exArchive3 : List TarEntry :=
  [(["tape", "a"], .fileE []), (["tape", "b"], .fileE []), (["tape", "c"], .fileE [])]

theorem roundHalfEven_ge (r : ℚ) : r - 1/2 ≤ (roundHalfEven r : ℚ) := by
  have hfl : (⌊r⌋ : ℚ) ≤ r := Int.floor_le r
  have hfu : r < ⌊r⌋ + 1 := Int.lt_floor_add_one r
  unfold roundHalfEven
  split_ifs with h1 h2 h3
  · linarith
  · push_cast
    linarith
  · have heq : r - (⌊r⌋ : ℚ) = 1/2 := le_antisymm (not_lt.mp h2) (not_lt.mp h1)
    linarith
  · push_cast
    linarith

theorem roundHalfEven_le (r : ℚ) : (roundHalfEven r : ℚ) ≤ r + 1/2 := by
  have hfl : (⌊r⌋ : ℚ) ≤ r := Int.floor_le r
  unfold roundHalfEven
  split_ifs with h1 h2 h3
  · linarith
  · push_cast
    linarith
  · linarith
  · push_cast
    have heq : r - (⌊r⌋ : ℚ) = 1/2 := le_antisymm (not_lt.mp h2) (not_lt.mp h1)
    linarith

theorem roundHalfEven_mem (r : ℚ) :
    roundHalfEven r = ⌊r⌋ ∨ roundHalfEven r = ⌊r⌋ + 1 := by
  unfold roundHalfEven
  split_ifs <;> simp

theorem roundHalfEven_mono {r s : ℚ} (h : r ≤ s) :
    roundHalfEven r ≤ roundHalfEven s := by
  have hfm : ⌊r⌋ ≤ ⌊s⌋ := Int.floor_mono h
  rcases lt_or_eq_of_le hfm with hlt | heq
  · rcases roundHalfEven_mem r with h1 | h1 <;>
      rcases roundHalfEven_mem s with h2 | h2 <;> omega
  · unfold roundHalfEven
    rw [← heq]
    split_ifs <;>
      first
        | omega
        | (exfalso; simp only [not_lt] at *; linarith)

theorem int_log2_unique {x : ℚ} {e : ℤ} (hx : 0 < x)
    (h1 : (2:ℚ) ^ e ≤ x) (h2 : x < (2:ℚ) ^ (e + 1)) : Int.log 2 x = e := by
  have hc : ((2:ℕ) : ℚ) = (2:ℚ) := by norm_num
  have hle : e ≤ Int.log 2 x := by
    rw [← Int.zpow_le_iff_le_log one_lt_two hx, hc]
    exact h1
  have hlt : Int.log 2 x < e + 1 := by
    rw [← Int.lt_zpow_iff_log_lt one_lt_two hx, hc]
    exact h2
  omega

theorem roundB64_of_pos {x : ℚ} (hx : 0 < x) :
    roundB64 x =
      (roundHalfEven (x * 2 ^ (52 - Int.log 2 x)) : ℚ) * 2 ^ (Int.log 2 x - 52) :=
  if_neg (not_le.mpr hx)

theorem zpow_two_add (a b : ℤ) : (2:ℚ) ^ a * (2:ℚ) ^ b = 2 ^ (a + b) :=
  (zpow_add₀ two_ne_zero a b).symm

theorem roundB64_scaled_lower {x : ℚ} (hx : 0 < x) :
    (2:ℚ) ^ (52:ℤ) ≤ x * 2 ^ (52 - Int.log 2 x) := by
  have hl : (2:ℚ) ^ Int.log 2 x ≤ x := by
    have := Int.zpow_log_le_self (b := 2) one_lt_two hx
    push_cast at this
    exact this
  calc (2:ℚ) ^ (52:ℤ) = 2 ^ Int.log 2 x * 2 ^ (52 - Int.log 2 x) := by
        rw [zpow_two_add]
        congr 1
        ring
    _ ≤ x * 2 ^ (52 - Int.log 2 x) :=
        mul_le_mul_of_nonneg_right hl (zpow_pos two_pos _).le

theorem roundB64_scaled_upper (x : ℚ) :
    x * 2 ^ (52 - Int.log 2 x) < (2:ℚ) ^ (53:ℤ) := by
  have hu : x < (2:ℚ) ^ (Int.log 2 x + 1) := by
    have := Int.lt_zpow_succ_log_self (b := 2) one_lt_two x
    push_cast at this
    exact this
  calc x * 2 ^ (52 - Int.log 2 x)
      < 2 ^ (Int.log 2 x + 1) * 2 ^ (52 - Int.log 2 x) :=
        mul_lt_mul_of_pos_right hu (zpow_pos two_pos _)
    _ = (2:ℚ) ^ (53:ℤ) := by
        rw [zpow_two_add]
        congr 1
        ring

theorem roundB64_err {x : ℚ} (hx : 0 < x) :
    x - 2 ^ (Int.log 2 x - 53) ≤ roundB64 x ∧
    roundB64 x ≤ x + 2 ^ (Int.log 2 x - 53) := by
  set e := Int.log 2 x with he
  have hsx : x * 2 ^ (52 - e) * 2 ^ (e - 52) = x := by
    rw [mul_assoc, zpow_two_add,
      show (52 - e) + (e - 52) = 0 from by ring, zpow_zero, mul_one]
  have hhalf : (1/2 : ℚ) * 2 ^ (e - 52) = 2 ^ (e - 53) := by
    rw [show (1/2 : ℚ) = 2 ^ (-1 : ℤ) from by norm_num, zpow_two_add]
    congr 1
    ring
  have hp : (0:ℚ) < 2 ^ (e - 52) := zpow_pos two_pos _
  rw [roundB64_of_pos hx, ← he]
  constructor
  · have h2 := mul_le_mul_of_nonneg_right (roundHalfEven_ge (x * 2 ^ (52 - e))) hp.le
    calc x - 2 ^ (e - 53) = (x * 2 ^ (52 - e) - 1/2) * 2 ^ (e - 52) := by
          rw [sub_mul, hsx, hhalf]
      _ ≤ _ := h2
  · have h2 := mul_le_mul_of_nonneg_right (roundHalfEven_le (x * 2 ^ (52 - e))) hp.le
    calc (roundHalfEven (x * 2 ^ (52 - e)) : ℚ) * 2 ^ (e - 52)
        ≤ (x * 2 ^ (52 - e) + 1/2) * 2 ^ (e - 52) := h2
      _ = x + 2 ^ (e - 53) := by rw [add_mul, hsx, hhalf]

theorem roundB64_bounds {x : ℚ} (hx : 0 < x) :
    (2:ℚ) ^ Int.log 2 x ≤ roundB64 x ∧ roundB64 x ≤ 2 ^ (Int.log 2 x + 1) := by
  set e := Int.log 2 x with he
  have hp : (0:ℚ) < 2 ^ (e - 52) := zpow_pos two_pos _
  have hsl := roundB64_scaled_lower hx
  have hsu := roundB64_scaled_upper x
  rw [← he] at hsl hsu
  set s := x * 2 ^ (52 - e) with hs
  have key1 : (2:ℚ) ^ (52:ℤ) ≤ (roundHalfEven s : ℚ) := by
    have h1 : (2:ℚ) ^ (52:ℤ) - 1/2 ≤ (roundHalfEven s : ℚ) := by
      have := roundHalfEven_ge s
      linarith
    have h2 : ((4503599627370495 : ℤ) : ℚ) < (roundHalfEven s : ℚ) := by
      have hnum : ((4503599627370495 : ℤ) : ℚ) = (2:ℚ) ^ (52:ℤ) - 1 := by norm_num
      linarith
    have h3 : (4503599627370496 : ℤ) ≤ roundHalfEven s := by
      have h2' : (4503599627370495 : ℤ) < roundHalfEven s := by exact_mod_cast h2
      omega
    have h4 : ((4503599627370496 : ℤ) : ℚ) ≤ (roundHalfEven s : ℚ) := by
      exact_mod_cast h3
    calc (2:ℚ) ^ (52:ℤ) = ((4503599627370496 : ℤ) : ℚ) := by norm_num
      _ ≤ _ := h4
  have key2 : (roundHalfEven s : ℚ) ≤ (2:ℚ) ^ (53:ℤ) := by
    have h1 : (roundHalfEven s : ℚ) ≤ s + 1/2 := roundHalfEven_le s
    have h2 : (roundHalfEven s : ℚ) < ((9007199254740992 : ℤ) : ℚ) + 1 := by
      have hnum : ((9007199254740992 : ℤ) : ℚ) = (2:ℚ) ^ (53:ℤ) := by norm_num
      linarith
    have h3 : roundHalfEven s ≤ 9007199254740992 := by
      have : roundHalfEven s < 9007199254740992 + 1 := by
        exact_mod_cast h2
      omega
    have h4 : (roundHalfEven s : ℚ) ≤ ((9007199254740992 : ℤ) : ℚ) := by
      exact_mod_cast h3
    calc (roundHalfEven s : ℚ) ≤ ((9007199254740992 : ℤ) : ℚ) := h4
      _ = (2:ℚ) ^ (53:ℤ) := by norm_num
  rw [roundB64_of_pos hx, ← he, ← hs]
  constructor
  · calc (2:ℚ) ^ e = 2 ^ (52:ℤ) * 2 ^ (e - 52) := by
          rw [zpow_two_add]
          congr 1
          ring
      _ ≤ (roundHalfEven s : ℚ) * 2 ^ (e - 52) :=
          mul_le_mul_of_nonneg_right key1 hp.le
  · calc (roundHalfEven s : ℚ) * 2 ^ (e - 52) ≤ 2 ^ (53:ℤ) * 2 ^ (e - 52) :=
          mul_le_mul_of_nonneg_right key2 hp.le
      _ = 2 ^ (e + 1) := by
          rw [zpow_two_add]
          congr 1
          ring

theorem roundB64_pos {x : ℚ} (hx : 0 < x) : 0 < roundB64 x :=
  lt_of_lt_of_le (zpow_pos two_pos _) (roundB64_bounds hx).1

theorem roundB64_mono {x y : ℚ} (hx : 0 < x) (hxy : x ≤ y) :
    roundB64 x ≤ roundB64 y := by
  have hy : 0 < y := lt_of_lt_of_le hx hxy
  have hee : Int.log 2 x ≤ Int.log 2 y := Int.log_mono_right hx hxy
  rcases eq_or_lt_of_le hee with heq | hlt
  · rw [roundB64_of_pos hx, roundB64_of_pos hy, ← heq]
    refine mul_le_mul_of_nonneg_right ?_ (zpow_pos two_pos _).le
    exact_mod_cast roundHalfEven_mono
      (mul_le_mul_of_nonneg_right hxy (zpow_pos two_pos _).le)
  · calc roundB64 x ≤ 2 ^ (Int.log 2 x + 1) := (roundB64_bounds hx).2
      _ ≤ 2 ^ Int.log 2 y := zpow_le_zpow_right₀ one_le_two (by omega)
      _ ≤ roundB64 y := (roundB64_bounds hy).1

theorem roundB64_eval_lt {x : ℚ} {e m : ℤ} (hx : 0 < x)
    (h1 : (2:ℚ) ^ e ≤ x) (h2 : x < (2:ℚ) ^ (e + 1))
    (hm1 : (m : ℚ) ≤ x * 2 ^ (52 - e)) (hm2 : x * 2 ^ (52 - e) < (m : ℚ) + 1/2) :
    roundB64 x = (m : ℚ) * 2 ^ (e - 52) := by
  have hlog := int_log2_unique hx h1 h2
  rw [roundB64_of_pos hx, hlog]
  have hfl : ⌊x * 2 ^ (52 - e)⌋ = m :=
    Int.floor_eq_iff.mpr ⟨hm1, by linarith⟩
  have hr : roundHalfEven (x * 2 ^ (52 - e)) = m := by
    unfold roundHalfEven
    rw [hfl, if_pos (by linarith)]
  rw [hr]

theorem roundB64_eval_gt {x : ℚ} {e m : ℤ} (hx : 0 < x)
    (h1 : (2:ℚ) ^ e ≤ x) (h2 : x < (2:ℚ) ^ (e + 1))
    (hm1 : (m : ℚ) + 1/2 < x * 2 ^ (52 - e)) (hm2 : x * 2 ^ (52 - e) < (m : ℚ) + 1) :
    roundB64 x = ((m + 1 : ℤ) : ℚ) * 2 ^ (e - 52) := by
  have hlog := int_log2_unique hx h1 h2
  rw [roundB64_of_pos hx, hlog]
  have hfl : ⌊x * 2 ^ (52 - e)⌋ = m :=
    Int.floor_eq_iff.mpr ⟨by linarith, by linarith⟩
  have hr : roundHalfEven (x * 2 ^ (52 - e)) = m + 1 := by
    unfold roundHalfEven
    rw [hfl, if_neg (by simp only [not_lt]; linarith), if_pos (by linarith)]
  rw [hr]

theorem roundB64_one : roundB64 1 = 1 := by
  have h : roundB64 (1:ℚ) = ((4503599627370496 : ℤ) : ℚ) * 2 ^ ((0:ℤ) - 52) :=
    roundB64_eval_lt one_pos (by norm_num) (by norm_num) (by norm_num) (by norm_num)
  rw [h]
  norm_num

theorem roundB64_hundred : roundB64 100 = 100 := by
  have h : roundB64 (100:ℚ) = ((7036874417766400 : ℤ) : ℚ) * 2 ^ ((6:ℤ) - 52) :=
    roundB64_eval_lt (by norm_num) (by norm_num) (by norm_num) (by norm_num) (by norm_num)
  rw [h]
  norm_num

theorem roundB64_below_hundred :
    roundB64 (100 - 100 * (2:ℚ) ^ (-53 : ℤ)) = 100 - (2:ℚ) ^ (-46 : ℤ) := by
  have h : roundB64 (100 - 100 * (2:ℚ) ^ (-53 : ℤ)) =
      ((7036874417766399 : ℤ) : ℚ) * 2 ^ ((6:ℤ) - 52) :=
    roundB64_eval_lt (by norm_num) (by norm_num) (by norm_num) (by norm_num) (by norm_num)
  rw [h]
  norm_num

theorem progressValue_last {n : ℕ} (hn : 1 ≤ n) : progressValue n n = 100 := by
  unfold progressValue
  rw [div_self (by exact_mod_cast (by omega : n ≠ 0) : ((n:ℚ)) ≠ 0)]
  rw [roundB64_one, one_mul, roundB64_hundred]
  decide

theorem progressValue_mono {n k k' : ℕ} (hk : 1 ≤ k) (hn : 1 ≤ n) (hkk : k ≤ k') :
    progressValue k n ≤ progressValue k' n := by
  have hn0 : (0:ℚ) < n := by exact_mod_cast (by omega : 0 < n)
  have hq0 : (0:ℚ) < (k:ℚ) / n := div_pos (by exact_mod_cast (by omega : 0 < k)) hn0
  have hqq : (k:ℚ) / n ≤ (k':ℚ) / n := by
    apply div_le_div_of_nonneg_right ?_ hn0.le
    exact_mod_cast hkk
  have hd := roundB64_mono hq0 hqq
  have hd0 : 0 < roundB64 ((k:ℚ) / n) := roundB64_pos hq0
  have hy : roundB64 ((k:ℚ) / n) * 100 ≤ roundB64 ((k':ℚ) / n) * 100 :=
    mul_le_mul_of_nonneg_right hd (by norm_num)
  have hy0 : 0 < roundB64 ((k:ℚ) / n) * 100 := mul_pos hd0 (by norm_num)
  have hp := roundB64_mono hy0 hy
  unfold progressValue
  exact Int.toNat_le_toNat (Int.floor_mono hp)

theorem progressValue_lt_hundred {k n : ℕ} (hk : 1 ≤ k) (hkn : k < n) (hn : n < 2 ^ 54) :
    progressValue k n < 100 := by
  have hn0 : (0:ℚ) < n := by exact_mod_cast (by omega : 0 < n)
  have hq0 : (0:ℚ) < (k:ℚ) / n := div_pos (by exact_mod_cast (by omega : 0 < k)) hn0
  have hq1 : (k:ℚ) / n ≤ 1 - 1 / n := by
    have hka : (k:ℚ) + 1 ≤ n := by exact_mod_cast hkn
    rw [div_le_iff₀ hn0, sub_mul, one_mul, one_div, inv_mul_cancel₀ (ne_of_gt hn0)]
    linarith
  have h54 : (2:ℚ) ^ (-54 : ℤ) < 1 / n := by
    rw [show ((2:ℚ) ^ (-54 : ℤ)) = 1 / 2 ^ 54 from by norm_num,
      div_lt_div_iff₀ (by positivity) hn0]
    have : (n:ℚ) < 2 ^ 54 := by exact_mod_cast hn
    linarith
  have hqlt : (k:ℚ) / n < 1 - (2:ℚ) ^ (-54 : ℤ) := by linarith
  have hd53 : roundB64 ((k:ℚ) / n) ≤ 1 - (2:ℚ) ^ (-53 : ℤ) := by
    by_cases hhalf : (1/2 : ℚ) ≤ (k:ℚ) / n
    · have hlog : Int.log 2 ((k:ℚ) / n) = -1 := by
        refine int_log2_unique hq0 ?_ ?_
        · rw [show ((2:ℚ) ^ (-1 : ℤ)) = 1/2 from by norm_num]
          exact hhalf
        · rw [show ((-1:ℤ) + 1) = 0 from by ring, zpow_zero]
          have : (0:ℚ) < (2:ℚ) ^ (-54 : ℤ) := zpow_pos two_pos _
          linarith
      have herr := (roundB64_err hq0).2
      rw [hlog, show ((-1:ℤ) - 53) = -54 from by ring] at herr
      have hd1 : roundB64 ((k:ℚ) / n) < 1 := by linarith
      have hgr := roundB64_of_pos hq0
      rw [hlog, show (52 - (-1:ℤ)) = 53 from by ring,
        show ((-1:ℤ) - 52) = -53 from by ring] at hgr
      set M := roundHalfEven ((k:ℚ) / n * 2 ^ (53:ℤ)) with hM
      have hMlt : (M:ℚ) * 2 ^ (-53 : ℤ) < 1 := by
        rw [← hgr]
        exact hd1
      have hM2 : (M:ℚ) < ((9007199254740992 : ℤ) : ℚ) := by
        by_contra hcon
        push_neg at hcon
        have hbig : ((9007199254740992 : ℤ) : ℚ) * 2 ^ (-53 : ℤ) ≤
            (M:ℚ) * 2 ^ (-53 : ℤ) :=
          mul_le_mul_of_nonneg_right hcon (zpow_pos two_pos _).le
        have hone : ((9007199254740992 : ℤ) : ℚ) * 2 ^ (-53 : ℤ) = 1 := by norm_num
        linarith
      have hM3 : M ≤ 9007199254740991 := by
        have hM2' : M < 9007199254740992 := by exact_mod_cast hM2
        omega
      rw [hgr]
      calc (M:ℚ) * 2 ^ (-53 : ℤ)
          ≤ ((9007199254740991 : ℤ) : ℚ) * 2 ^ (-53 : ℤ) :=
            mul_le_mul_of_nonneg_right (by exact_mod_cast hM3) (zpow_pos two_pos _).le
        _ = 1 - 2 ^ (-53 : ℤ) := by norm_num
    · have hq2 : (k:ℚ) / n < 1/2 := not_le.mp hhalf
      have hle : Int.log 2 ((k:ℚ) / n) ≤ -2 := by
        by_contra hcon
        push_neg at hcon
        have h1 : (2:ℚ) ^ (-1 : ℤ) ≤ (2:ℚ) ^ Int.log 2 ((k:ℚ) / n) :=
          zpow_le_zpow_right₀ one_le_two (by omega)
        have h2 : (2:ℚ) ^ Int.log 2 ((k:ℚ) / n) ≤ (k:ℚ) / n := by
          have := Int.zpow_log_le_self (b := 2) one_lt_two hq0
          push_cast at this
          exact this
        rw [show ((2:ℚ) ^ (-1 : ℤ)) = 1/2 from by norm_num] at h1
        linarith
      have herr := (roundB64_err hq0).2
      have hb : (2:ℚ) ^ (Int.log 2 ((k:ℚ) / n) - 53) ≤ 2 ^ (-55 : ℤ) :=
        zpow_le_zpow_right₀ one_le_two (by omega)
      have hnum : (1/2 : ℚ) + 2 ^ (-55 : ℤ) ≤ 1 - 2 ^ (-53 : ℤ) := by norm_num
      linarith
  have hd0 : 0 < roundB64 ((k:ℚ) / n) := roundB64_pos hq0
  have hy : roundB64 ((k:ℚ) / n) * 100 ≤ 100 - 100 * (2:ℚ) ^ (-53 : ℤ) := by
    have := mul_le_mul_of_nonneg_right hd53 (by norm_num : (0:ℚ) ≤ 100)
    linarith
  have hy0 : 0 < roundB64 ((k:ℚ) / n) * 100 := mul_pos hd0 (by norm_num)
  have hp := roundB64_mono hy0 hy
  rw [roundB64_below_hundred] at hp
  have hfl : ⌊roundB64 (roundB64 ((k:ℚ) / n) * 100)⌋ ≤ 99 := by
    have h99 : ⌊(100 - (2:ℚ) ^ (-46 : ℤ))⌋ = 99 := by norm_num
    calc ⌊roundB64 (roundB64 ((k:ℚ) / n) * 100)⌋
        ≤ ⌊(100 - (2:ℚ) ^ (-46 : ℤ))⌋ := Int.floor_mono hp
      _ = 99 := h99
  unfold progressValue
  have h2 : (⌊roundB64 (roundB64 ((k:ℚ) / n) * 100)⌋).toNat ≤ (99 : ℤ).toNat :=
    Int.toNat_le_toNat hfl
  simp only [Int.toNat_ofNat] at h2
  omega

theorem restoreProgress_length (n : Nat) : (restoreProgress n).length = n := by
  simp [restoreProgress]

theorem restoreProgress_pairwise (n : Nat) :
    List.Pairwise (fun a b => a ≤ b) (restoreProgress n) := by
  rcases Nat.eq_zero_or_pos n with h | h
  · subst h
    simp [restoreProgress]
  · unfold restoreProgress
    refine List.Pairwise.map _ ?_ (List.pairwise_lt_range n)
    intro a b hab
    exact progressValue_mono (by omega) h (by omega)

theorem restoreProgress_last (n : Nat) (h : 1 ≤ n) :
    (restoreProgress n).getD (n - 1) 0 = 100 := by
  obtain ⟨m, rfl⟩ : ∃ m, n = m + 1 := ⟨n - 1, by omega⟩
  unfold restoreProgress
  rw [List.getD_eq_getElem _ _ (by simp)]
  simp only [List.getElem_map, List.getElem_range]
  simp only [Nat.add_sub_cancel]
  exact progressValue_last (by omega)

theorem restoreProgress_count (n : Nat) (h : 1 ≤ n) (h54 : n < 2 ^ 54) :
    (restoreProgress n).count 100 = 1 := by
  obtain ⟨m, rfl⟩ : ∃ m, n = m + 1 := ⟨n - 1, by omega⟩
  unfold restoreProgress
  rw [List.range_succ, List.map_append, List.count_append]
  have h0 : ((List.range m).map (fun i => progressValue (i + 1) (m + 1))).count 100 = 0 := by
    rw [List.count_eq_zero]
    intro hmem
    rw [List.mem_map] at hmem
    obtain ⟨i, hi, hv⟩ := hmem
    rw [List.mem_range] at hi
    have := progressValue_lt_hundred (k := i + 1) (n := m + 1) (by omega) (by omega) h54
    omega
  have h1 : progressValue (m + 1) (m + 1) = 100 := progressValue_last (by omega)
  simp [h0, h1]

theorem progressValue_one_third : progressValue 1 3 = 33 := by
  unfold progressValue
  have hc : ((1:ℕ):ℚ) / ((3:ℕ):ℚ) = 1/3 := by norm_num
  rw [hc]
  have step1 : roundB64 (1/3 : ℚ) = ((6004799503160661 : ℤ) : ℚ) * 2 ^ ((-2:ℤ) - 52) :=
    roundB64_eval_lt (by norm_num) (by norm_num) (by norm_num) (by norm_num) (by norm_num)
  have step2 : roundB64 (1/3 : ℚ) * 100 = (600479950316066100 : ℚ) / 2 ^ 54 := by
    rw [step1]
    norm_num
  rw [step2]
  have step3 : roundB64 ((600479950316066100 : ℚ) / 2 ^ 54) =
      ((4691249611844266 : ℤ) : ℚ) * 2 ^ ((5:ℤ) - 52) :=
    roundB64_eval_lt (by norm_num) (by norm_num) (by norm_num) (by norm_num) (by norm_num)
  rw [step3]
  have hfl : ⌊((4691249611844266 : ℤ) : ℚ) * 2 ^ ((5:ℤ) - 52)⌋ = 33 := by norm_num
  rw [hfl]
  rfl

theorem progressValue_two_thirds : progressValue 2 3 = 66 := by
  unfold progressValue
  have hc : ((2:ℕ):ℚ) / ((3:ℕ):ℚ) = 2/3 := by norm_num
  rw [hc]
  have step1 : roundB64 (2/3 : ℚ) = ((6004799503160661 : ℤ) : ℚ) * 2 ^ ((-1:ℤ) - 52) :=
    roundB64_eval_lt (by norm_num) (by norm_num) (by norm_num) (by norm_num) (by norm_num)
  have step2 : roundB64 (2/3 : ℚ) * 100 = (600479950316066100 : ℚ) / 2 ^ 53 := by
    rw [step1]
    norm_num
  rw [step2]
  have step3 : roundB64 ((600479950316066100 : ℚ) / 2 ^ 53) =
      ((4691249611844266 : ℤ) : ℚ) * 2 ^ ((6:ℤ) - 52) :=
    roundB64_eval_lt (by norm_num) (by norm_num) (by norm_num) (by norm_num) (by norm_num)
  rw [step3]
  have hfl : ⌊((4691249611844266 : ℤ) : ℚ) * 2 ^ ((6:ℤ) - 52)⌋ = 66 := by norm_num
  rw [hfl]
  rfl

theorem restoreProgress_three : restoreProgress 3 = [33, 66, 100] := by
  have h3 : progressValue 3 3 = 100 := progressValue_last (by omega)
  simp [restoreProgress, List.range_succ, progressValue_one_third,
    progressValue_two_thirds, h3]

/-- The float evaluation can fall below the exact floor of the
rational value, as it does at entry 29 of a 100-entry archive: the
correctly rounded `29 / 100` times 100 is the double just below 29, so
the code reports 28 where exact arithmetic would give 29. -/
theorem progressValue_dips_below_exact_floor :
    progressValue 29 100 = 28 ∧ 29 * 100 / 100 = 29 := by
  constructor
  · unfold progressValue
    have hc : ((29:ℕ):ℚ) / ((100:ℕ):ℚ) = 29/100 := by norm_num
    rw [hc]
    have step1 : roundB64 (29/100 : ℚ) =
        ((5224175567749775 : ℤ) : ℚ) * 2 ^ ((-2:ℤ) - 52) :=
      roundB64_eval_lt (by norm_num) (by norm_num) (by norm_num) (by norm_num) (by norm_num)
    have step2 : roundB64 (29/100 : ℚ) * 100 = (522417556774977500 : ℚ) / 2 ^ 54 := by
      rw [step1]
      norm_num
    rw [step2]
    have step3 : roundB64 ((522417556774977500 : ℚ) / 2 ^ 54) =
        ((8162774324609023 : ℤ) : ℚ) * 2 ^ ((4:ℤ) - 52) :=
      roundB64_eval_lt (by norm_num) (by norm_num) (by norm_num) (by norm_num) (by norm_num)
    rw [step3]
    have hfl : ⌊((8162774324609023 : ℤ) : ℚ) * 2 ^ ((4:ℤ) - 52)⌋ = 28 := by norm_num
    rw [hfl]
    rfl
  · norm_num

/-- Claim C5, counterexample.  On a three-entry archive the second
reported progress value is `int((2 / 3) * 100) = 66`, while the claimed
`round((2 / 3) * 100)` is `67`: the source truncates, it does not
round. -/
theorem restore_progress_truncates :
    (restore_archive exProgressWorld (some exArchive3) ["op1"]).2.2 = [33, 66, 100] ∧
    round ((2 : ℚ) / 3 * 100) = 67 ∧ ((66 : ℤ) ≠ 67) := by
  refine ⟨?_, ?_, by decide⟩
  · have hv : is_valid_mount exProgressWorld ["op1"] = true := by decide
    simp [restore_archive, hv, exArchive3, restoreProgress_three]
  · rw [round_eq]
    norm_num

/-- Claim C5 (amended).  For every archive with at least one entry
restored onto a valid mount, the progress callback is invoked exactly
once per entry with `int((i + 1) / total * 100)` as binary64 float
arithmetic evaluates it — a truncation that can fall below both the
claimed `round` and the exact floor of the rational value; the
sequence is non-decreasing, its final value is exactly 100, and for
every archive with fewer than `2 ^ 54` entries (any realizable
archive) the value 100 is reported exactly once, on the final entry.
At exactly `2 ^ 54` entries the correctly rounded division
`(2 ^ 54 - 1) / 2 ^ 54` already ties to 1.0, so the code would report
100 one entry early. -/
theorem restore_progress_spec :
    ∀ (world : FsTree) (mount : List String) (entries : List TarEntry),
      is_valid_mount world mount = true → entries ≠ [] →
      (restore_archive world (some entries) mount).2.2 = restoreProgress entries.length ∧
      (restoreProgress entries.length).length = entries.length ∧
      List.Pairwise (fun a b => a ≤ b) (restoreProgress entries.length) ∧
      (restoreProgress entries.length).getD (entries.length - 1) 0 = 100 ∧
      (entries.length < 2 ^ 54 → (restoreProgress entries.length).count 100 = 1) := by
  intro world mount entries hv hne
  have hlen : 1 ≤ entries.length := by
    cases entries with
    | nil => simp at hne
    | cons e rest => simp
  refine ⟨?_, restoreProgress_length _, restoreProgress_pairwise _,
    restoreProgress_last _ hlen, fun h54 => restoreProgress_count _ hlen h54⟩
  simp [restore_archive, hv]

theorem restore_progress_spec_witness :
    (restore_archive exProgressWorld (some exArchive3) ["op1"]).2.2 = restoreProgress 3 ∧
    (restoreProgress 3).length = 3 ∧
    List.Pairwise (fun a b => a ≤ b) (restoreProgress 3) ∧
    (restoreProgress 3).getD 2 0 = 100 ∧
    (restoreProgress 3).count 100 = 1 := by
  obtain ⟨h1, h2, h3, h4, h5⟩ :=
    restore_progress_spec exProgressWorld ["op1"] exArchive3 (by decide) (by decide)
  exact ⟨h1, h2, h3, h4, h5 (by decide)⟩

/-! ### Claim C8: failing mount enumeration -/

/-- Claim C8, counterexample.  When the OS mount query exits non-zero,
get_potential_mounts returns the `None` sentinel, which is not the
empty sequence of volumes the claim promises. -/
theorem get_potential_mounts_failure_is_none :
    get_potential_mounts ⟨1, some "/dev/disk2s1 on /Volumes/OP-1 (msdos)"⟩ = none ∧
    (none : Option (List (String × String))) ≠ some [] := by
  exact ⟨rfl, by decide⟩

/-- Claim C8 (amended).  When the OS mount query fails (non-zero exit)
or its output is absent, get_potential_mounts returns the `None`
sentinel (after emitting a diagnostic); when the query succeeds with
empty output it returns the empty sequence.  The function is total, so
it never throws to the caller. -/
theorem get_potential_mounts_failure_spec :
    ∀ r : RunResult,
      (r.returncode ≠ 0 → get_potential_mounts r = none) ∧
      (r.stdout = none → get_potential_mounts r = none) ∧
      (r.returncode = 0 → r.stdout = some "" → get_potential_mounts r = some []) := by
  intro r
  refine ⟨?_, ?_, ?_⟩
  · intro h
    simp [get_potential_mounts, h]
  · intro h
    unfold get_potential_mounts
    rw [h]
    split
    · rfl
    · rfl
  · intro h0 hs
    unfold get_potential_mounts
    rw [hs, if_neg (by simp [h0])]
    rfl

theorem get_potential_mounts_failure_spec_witness :
    get_potential_mounts ⟨1, some "x"⟩ = none ∧
    get_potential_mounts ⟨0, none⟩ = none ∧
    get_potential_mounts ⟨0, some ""⟩ = some [] :=
  ⟨(get_potential_mounts_failure_spec ⟨1, some "x"⟩).1 (by decide),
   (get_potential_mounts_failure_spec ⟨0, none⟩).2.1 rfl,
   (get_potential_mounts_failure_spec ⟨0, some ""⟩).2.2 rfl rfl⟩

/-! ### Claims C2 and C3: hidden entries leak into archives

generate_archive only filters names that are themselves hidden at the
moment they are enumerated.  It still walks into hidden directories
(os.walk does not prune them), and it adds non-hidden directories with
`recursive=True`, which re-adds all their contents, hidden included.
Both leaks are witnessed below. -/

/-- A device tree with no hidden top-level entry, but a hidden
directory `.h` under `tape` holding a visible file, and a hidden file
`.f` inside the visible directory `e`. -/
def hiddenLeakTree : FsTree :=
  .dir [("tape", .dir [(".h", .dir [("x", .file [1])]), ("e", .dir [(".f", .file [7])])]),
        ("album", .dir []), ("synth", .dir []), ("drum", .dir [])]

/-- Claim C3, failing input.  The archive of `hiddenLeakTree` contains
the entry `tape/.h/x` (reached because os.walk descends into the
hidden `.h`) and the entry `tape/e/.f` (added because tar.add descends
recursively without filtering), both with a hidden component, contrary
to the claim that hidden entries are skipped at every level. -/
theorem generate_archive_emits_hidden_paths :
    (["tape", ".h", "x"], TarItem.fileE [1]) ∈ generate_archive hiddenLeakTree ∧
    (["tape", "e", ".f"], TarItem.fileE [7]) ∈ generate_archive hiddenLeakTree ∧
    (generate_archive hiddenLeakTree).any
        (fun e => e.1.any (fun s => hiddenName s)) = true := by
  have h : generate_archive hiddenLeakTree =
      [(["tape"], .dirE),
       (["tape", "e"], .dirE), (["tape", "e", ".f"], .fileE [7]),
       (["tape", ".h", "x"], .fileE [1]),
       (["album"], .dirE), (["synth"], .dirE), (["drum"], .dirE)] := by
    simp [generate_archive, hiddenLeakTree, tarAddTree, tarAddChildren, osWalk,
      walkInto, sortChildren, insortChild, hiddenName, strStartsWith, FsTree.isDir]
  rw [h]
  decide

/-- An empty but fingerprint-valid restore target. -/
def hiddenLeakWorld : FsTree :=
  .dir [("target", .dir [("tape", .dir []), ("album", .dir []),
                         ("synth", .dir []), ("drum", .dir [])])]

/-- Claim C2, failing input.  Restoring the archive of
`hiddenLeakTree` (which has no hidden top-level entry) onto a fresh
valid mount reproduces the hidden path `tape/.h/x`, which is not among
the source tree's paths excluding hidden entries: the round trip does
not reproduce exactly the hidden-excluded path set. -/
theorem restore_roundtrip_hidden_leak :
    ["tape", ".h", "x"] ∈
      pathsAt (restore_archive hiddenLeakWorld
        (some (generate_archive hiddenLeakTree)) ["target"]).2.1 ["target"] ∧
    ["tape", ".h", "x"] ∉ visiblePathsOf hiddenLeakTree := by
  have h : generate_archive hiddenLeakTree =
      [(["tape"], .dirE),
       (["tape", "e"], .dirE), (["tape", "e", ".f"], .fileE [7]),
       (["tape", ".h", "x"], .fileE [1]),
       (["album"], .dirE), (["synth"], .dirE), (["drum"], .dirE)] := by
    simp [generate_archive, hiddenLeakTree, tarAddTree, tarAddChildren, osWalk,
      walkInto, sortChildren, insortChild, hiddenName, strStartsWith, FsTree.isDir]
  rw [h]
  constructor
  · simp [pathsAt, restore_archive, is_valid_mount, hiddenLeakWorld,
      updateAt, insertAt, lookupNode, lookupKey, setKey, pathExists,
      is_op1_drive, get_visible_folders, get_visible_children, isDirAt,
      OP1_BASE_DIRS, hiddenName, strStartsWith, pathsOf, pathsOfChildren]
  · simp [visiblePathsOf, hiddenLeakTree, pathsOf, pathsOfChildren, hiddenName,
      strStartsWith]

/-! ### Claim C7: parsing one mount-table line -/

/-- A split of the text after the ` on ` separator that the pattern
accepts: the mount group is non-empty and NUL-free, and the remaining
suffix matches ` (type .*)?\(.*\)\s*$`. -/
def goodSplit (M S : List Char) : Prop :=
  M ≠ [] ∧ (∀ c ∈ M, c ≠ '\x00') ∧ sepTail S = true

theorem mountScan_none_sound :
    ∀ (s m : List Char), mountScan m s = none →
      ∀ t u, s = t ++ u → ¬ goodSplit (m ++ t) u := by
  intro s
  induction s with
  | nil =>
      intro m h t u hsplit
      obtain ⟨rfl, rfl⟩ := (List.nil_eq_append_iff.mp hsplit)
      rintro ⟨-, -, hsep⟩
      simp [sepTail] at hsep
  | cons c rest ih =>
      intro m h t u hsplit
      simp only [mountScan] at h
      cases hin : mountScan (m ++ [c]) rest with
      | some r => rw [hin] at h; exact absurd h (by simp)
      | none =>
          rw [hin] at h
          cases t with
          | nil =>
              have hu : u = c :: rest := by simpa using hsplit.symm
              subst hu
              rw [List.append_nil]
              rintro ⟨hne, hnul, hsep⟩
              have hcond :
                  (decide (m ≠ []) && m.all (fun a => decide (a ≠ '\x00')) &&
                    sepTail (c :: rest)) = true := by
                simp only [Bool.and_eq_true, decide_eq_true_eq, List.all_eq_true]
                exact ⟨⟨hne, fun a ha => by simpa using hnul a ha⟩, hsep⟩
              rw [if_pos hcond] at h
              exact absurd h (by simp)
          | cons c2 t2 =>
              injection hsplit with ha hb
              subst ha
              have hres := ih (m ++ [c]) hin t2 u hb
              intro hg
              apply hres
              rw [← List.append_cons]
              simpa using hg

theorem mountScan_some_spec :
    ∀ (s m M : List Char), mountScan m s = some M →
      (∃ t u, s = t ++ u ∧ M = m ++ t ∧ goodSplit M u) ∧
      (∀ t u, s = t ++ u → M.length < (m ++ t).length → ¬ goodSplit (m ++ t) u) := by
  intro s
  induction s with
  | nil => intro m M h; simp [mountScan] at h
  | cons c rest ih =>
      intro m M h
      simp only [mountScan] at h
      cases hin : mountScan (m ++ [c]) rest with
      | some r =>
          rw [hin] at h
          have hrM : r = M := by injection h
          subst hrM
          obtain ⟨⟨t, u, hsplit, hMt, hgood⟩, hmax⟩ := ih (m ++ [c]) r hin
          constructor
          · refine ⟨c :: t, u, by simp [hsplit], ?_, hgood⟩
            simp [hMt]
          · intro t' u' hs hlen
            cases t' with
            | nil =>
                exfalso
                have hMlen : r.length = m.length + 1 + t.length := by
                  rw [hMt]; simp_arith
                simp at hlen
                omega
            | cons c2 t2 =>
                injection hs with ha hb
                subst ha
                have hres := hmax t2 u' hb (by simp at hlen ⊢; omega)
                intro hg
                apply hres
                rw [← List.append_cons]
                simpa using hg
      | none =>
          rw [hin] at h
          by_cases hc :
              (decide (m ≠ []) && m.all (fun a => decide (a ≠ '\x00')) &&
                sepTail (c :: rest)) = true
          · rw [if_pos hc] at h
            have hM : m = M := by injection h
            subst hM
            constructor
            · refine ⟨[], c :: rest, by simp, by simp, ?_⟩
              simp only [Bool.and_eq_true, decide_eq_true_eq, List.all_eq_true] at hc
              exact ⟨hc.1.1, fun a ha => by simpa using hc.1.2 a ha, hc.2⟩
            · intro t u hs hlen
              cases t with
              | nil => simp at hlen
              | cons c2 t2 =>
                  injection hs with ha hb
                  subst ha
                  have hres := mountScan_none_sound rest (m ++ [c]) hin t2 u hb
                  intro hg
                  apply hres
                  rw [← List.append_cons]
                  simpa using hg
          · rw [if_neg hc] at h
            exact absurd h (by simp)

/-- The mount group returned by the scanner is a prefix of the scanned
text whose remainder the tail pattern accepts, and it is the longest
such prefix. -/
theorem mountScan_longest (s M : List Char) (h : mountScan [] s = some M) :
    (∃ u, s = M ++ u ∧ goodSplit M u) ∧
    (∀ t u, s = t ++ u → M.length < t.length → ¬ goodSplit t u) := by
  obtain ⟨⟨t, u, hsplit, hMt, hgood⟩, hmax⟩ := mountScan_some_spec s [] M h
  simp only [List.nil_append] at hMt
  subst hMt
  refine ⟨⟨u, hsplit, hgood⟩, ?_⟩
  intro t' u' hs hlen
  have := hmax t' u' hs (by simpa using hlen)
  simpa using this

/-- Claim C7, counterexample.  On the Linux-style line
`/dev/sda1 on / type ext4 (rw,relatime)` the parsed mount path is
`/ type ext4`, not the `/` the claimed ` type`-marker termination rule
would produce: the greedy mount group absorbs the ` type ...` text
whenever a later parenthesized group follows. -/
theorem get_mount_from_line_type_marker_cex :
    get_mount_from_line "/dev/sda1 on / type ext4 (rw,relatime)" =
      some ("/dev/sda1", "/ type ext4") ∧
    ("/ type ext4" : String) ≠ "/" :=
  ⟨rfl, by decide⟩

/-- Claim C7 (amended).  The concrete macOS-style line parses exactly
as claimed; in general a successful parse decomposes the line into
leading whitespace, a device token `/dev/` followed by a non-empty
word-character run, the literal ` on `, and a remainder from which the
mount path is extracted as the longest non-empty NUL-free prefix whose
suffix still matches ` (type .*)?\(.*\)\s*$` — so a ` (` or ` type`
marker does not by itself terminate the mount path.  Lines that do not
match the pattern yield `none`. -/
theorem get_mount_from_line_spec :
    get_mount_from_line "/dev/disk2s1 on /Volumes/OP-1 (msdos, local, nodev, nosuid)" =
      some ("/dev/disk2s1", "/Volumes/OP-1") ∧
    (∀ s M, mountScan [] s = some M →
      (∃ u, s = M ++ u ∧ goodSplit M u) ∧
      (∀ t u, s = t ++ u → M.length < t.length → ¬ goodSplit t u)) ∧
    (∀ line d m, get_mount_from_line line = some (d, m) →
      ∃ rest r2,
        line.toList.dropWhile pyIsSpace = '/' :: 'd' :: 'e' :: 'v' :: '/' :: rest ∧
        rest.takeWhile pyIsWord ≠ [] ∧
        d = String.mk ('/' :: 'd' :: 'e' :: 'v' :: '/' :: rest.takeWhile pyIsWord) ∧
        rest.dropWhile pyIsWord = ' ' :: 'o' :: 'n' :: ' ' :: r2 ∧
        mountScan [] r2 = some m.toList) := by
  refine ⟨rfl, mountScan_longest, ?_⟩
  intro line d m h
  unfold get_mount_from_line at h
  dsimp only at h
  split at h
  case h_2 => exact absurd h (by simp)
  case h_1 rest heq =>
    by_cases hw : rest.takeWhile pyIsWord = []
    · rw [if_pos hw] at h
      exact absurd h (by simp)
    · rw [if_neg hw] at h
      split at h
      · rename_i r2 heq2
        cases hms : mountScan [] r2 with
        | none => rw [hms] at h; exact absurd h (by simp)
        | some m0 =>
            rw [hms] at h
            have hpair : (String.mk ('/' :: 'd' :: 'e' :: 'v' :: '/' ::
                rest.takeWhile pyIsWord), String.mk m0) = (d, m) := by
              injection h
            injection hpair with h1 h2
            refine ⟨rest, r2, heq, hw, h1.symm, heq2, ?_⟩
            rw [← h2]
            exact hms
      · exact absurd h (by simp)


theorem get_mount_from_line_spec_witness :
    get_mount_from_line "/dev/disk2s1 on /Volumes/OP-1 (msdos, local, nodev, nosuid)" =
      some ("/dev/disk2s1", "/Volumes/OP-1") ∧
    ¬ goodSplit "/Volumes/OP-1 (msdos,".toList " local, nodev, nosuid)".toList :=
  ⟨get_mount_from_line_spec.1,
   (get_mount_from_line_spec.2.1 "/Volumes/OP-1 (msdos, local, nodev, nosuid)".toList
      "/Volumes/OP-1".toList (by decide)).2
     "/Volumes/OP-1 (msdos,".toList " local, nodev, nosuid)".toList
     (by decide) (by decide)⟩

end Opie
